import Mathlib

/-!
# The leveldb2 filer store (`weed/filer2/leveldb2/leveldb2_store.go`)

A shallow embedding of the hashed-key metadata store: the key encoder
(`genKey`, `genDirectoryKeyPrefix`, `getNameFromKey`, `hashToBytes`) and the
store operations (`InsertEntry`, `UpdateEntry`, `FindEntry`, `DeleteEntry`,
`ListDirectoryEntries`) over a model of the ordered key-value engine.

Conventions of the embedding:
* a Go `string` or `[]byte` is a list of bytes (`Bytes`);
* a Go `int` is an `Int` reduced into the 64-bit two's complement range after
  every arithmetic step (`wrapInt`);
* a Go `error` is a value of `Error`, `nil` being `none`;
* a function that can panic returns an `Outcome`;
* an engine call that can fail for reasons outside the store's content takes
  an extra argument `fault`, `none` meaning that the call is served.
-/

namespace Leveldb2

/-! ## Bytes and strings -/

/-- One byte. -/
abbrev Byte := Fin 256

/-- A Go `[]byte` or `string`: a finite sequence of bytes, compared
lexicographically (`bytes.Compare`). -/
abbrev Bytes := List Byte

/-- The bytes of a string literal (UTF-8, as Go stores it). -/
def str (s : String) : Bytes :=
  s.data.flatMap (fun c => (String.utf8EncodeChar c).map (fun b => Fin.ofNat b.toNat))

/-- The type `filer2.FullPath`, a named string type. -/
abbrev FullPath := Bytes

/-! ## `crypto/md5` (RFC 1321)

`hashToBytes` calls `md5.New`, writes the directory and takes `Sum(nil)`.
The digest is the standard library's; it is written out here from RFC 1321 so
that keys can be computed on concrete paths. Words are naturals below `2^32`. -/

/-- Per-round left-rotation amounts. -/
def md5S : List Nat :=
  [7, 12, 17, 22, 7, 12, 17, 22, 7, 12, 17, 22, 7, 12, 17, 22,
   5, 9, 14, 20, 5, 9, 14, 20, 5, 9, 14, 20, 5, 9, 14, 20,
   4, 11, 16, 23, 4, 11, 16, 23, 4, 11, 16, 23, 4, 11, 16, 23,
   6, 10, 15, 21, 6, 10, 15, 21, 6, 10, 15, 21, 6, 10, 15, 21]

/-- The sine-derived additive constants `floor(2^32 * |sin(i + 1)|)`. -/
def md5K : List Nat :=
  [0xd76aa478, 0xe8c7b756, 0x242070db, 0xc1bdceee,
   0xf57c0faf, 0x4787c62a, 0xa8304613, 0xfd469501,
   0x698098d8, 0x8b44f7af, 0xffff5bb1, 0x895cd7be,
   0x6b901122, 0xfd987193, 0xa679438e, 0x49b40821,
   0xf61e2562, 0xc040b340, 0x265e5a51, 0xe9b6c7aa,
   0xd62f105d, 0x02441453, 0xd8a1e681, 0xe7d3fbc8,
   0x21e1cde6, 0xc33707d6, 0xf4d50d87, 0x455a14ed,
   0xa9e3e905, 0xfcefa3f8, 0x676f02d9, 0x8d2a4c8a,
   0xfffa3942, 0x8771f681, 0x6d9d6122, 0xfde5380c,
   0xa4beea44, 0x4bdecfa9, 0xf6bb4b60, 0xbebfbc70,
   0x289b7ec6, 0xeaa127fa, 0xd4ef3085, 0x04881d05,
   0xd9d4d039, 0xe6db99e5, 0x1fa27cf8, 0xc4ac5665,
   0xf4292244, 0x432aff97, 0xab9423a7, 0xfc93a039,
   0x655b59c3, 0x8f0ccc92, 0xffeff47d, 0x85845dd1,
   0x6fa87e4f, 0xfe2ce6e0, 0xa3014314, 0x4e0811a1,
   0xf7537e82, 0xbd3af235, 0x2ad7d2bb, 0xeb86d391]

/-- Rotate a 32-bit word left by `c` bits. -/
def rotl32 (x c : Nat) : Nat := ((x <<< c) ||| (x >>> (32 - c))) % 2 ^ 32

/-- Bitwise complement of a 32-bit word. -/
def not32 (x : Nat) : Nat := 2 ^ 32 - 1 - x % 2 ^ 32

/-- The four chaining words of MD5. -/
structure Md5State where
  a : Nat
  b : Nat
  c : Nat
  d : Nat
deriving DecidableEq, Repr

/-- The initial chaining value. -/
def md5Init : Md5State := ⟨0x67452301, 0xefcdab89, 0x98badcfe, 0x10325476⟩

/-- Step `i` (of 64) of the compression function on message words `m`. -/
def md5Round (m : List Nat) (s : Md5State) (i : Nat) : Md5State :=
  let f :=
    if i < 16 then (s.b &&& s.c) ||| (not32 s.b &&& s.d)
    else if i < 32 then (s.d &&& s.b) ||| (not32 s.d &&& s.c)
    else if i < 48 then s.b ^^^ s.c ^^^ s.d
    else s.c ^^^ (s.b ||| not32 s.d)
  let g :=
    if i < 16 then i
    else if i < 32 then (5 * i + 1) % 16
    else if i < 48 then (3 * i + 5) % 16
    else (7 * i) % 16
  let f2 := (f + s.a + md5K.getD i 0 + m.getD g 0) % 2 ^ 32
  ⟨s.d, (s.b + rotl32 f2 (md5S.getD i 0)) % 2 ^ 32, s.b, s.c⟩

/-- A little-endian 32-bit word read from the first four bytes of `bs`. -/
def le32 (bs : List Nat) : Nat :=
  bs.getD 0 0 + 256 * bs.getD 1 0 + 65536 * bs.getD 2 0 + 16777216 * bs.getD 3 0

/-- The sixteen message words of a 64-byte block. -/
def md5Words (block : List Nat) : List Nat :=
  (List.range 16).map (fun j => le32 (block.drop (4 * j)))

/-- The compression function on one 64-byte block. -/
def md5Block (s : Md5State) (block : List Nat) : Md5State :=
  let t := (List.range 64).foldl (md5Round (md5Words block)) s
  ⟨(s.a + t.a) % 2 ^ 32, (s.b + t.b) % 2 ^ 32, (s.c + t.c) % 2 ^ 32, (s.d + t.d) % 2 ^ 32⟩

/-- Message padding: a `0x80` byte, zeros up to 56 modulo 64, then the bit
length as eight little-endian bytes. -/
def md5Pad (msg : List Nat) : List Nat :=
  let n := msg.length
  let bits := (8 * n) % 2 ^ 64
  msg ++ [0x80] ++ List.replicate ((119 - n % 64) % 64) 0
    ++ (List.range 8).map (fun j => (bits >>> (8 * j)) % 256)

/-- Fold the compression function over `k` consecutive blocks. -/
def md5Blocks : Nat → Md5State → List Nat → Md5State
  | 0, s, _ => s
  | k + 1, s, bs => md5Blocks k (md5Block s (bs.take 64)) (bs.drop 64)

/-- The four bytes of a 32-bit word, little-endian. -/
def word4 (w : Nat) : Bytes :=
  [Fin.ofNat (w % 256), Fin.ofNat (w / 256 % 256),
   Fin.ofNat (w / 65536 % 256), Fin.ofNat (w / 16777216 % 256)]

/-- The MD5 digest of a byte string (`md5.New`, `Write`, `Sum(nil)`). -/
def md5Sum (msg : Bytes) : Bytes :=
  let p := md5Pad (msg.map Fin.val)
  let s := md5Blocks (p.length / 64) md5Init p
  word4 s.a ++ word4 s.b ++ word4 s.c ++ word4 s.d

/-! ## The key encoder -/

/-- Go `hashToBytes`: the MD5 digest of the directory path. -/
def hashToBytes (dir : Bytes) : Bytes := md5Sum dir

/-- Go `genKey`: the directory digest followed by the file name. -/
def genKey (dirPath fileName : Bytes) : Bytes :=
  hashToBytes dirPath ++ fileName

/-- Go `genDirectoryKeyPrefix`: the directory digest, followed by the start
file name when that is not empty. -/
def genDirectoryKeyPrefix (fullpath : FullPath) (startFileName : Bytes) : Bytes :=
  if startFileName.length > 0 then hashToBytes fullpath ++ startFileName
  else hashToBytes fullpath

/-- Go `getNameFromKey`: `string(key[8:])`. The slice expression panics when
the key has fewer than 8 bytes, which is `none` here. -/
def getNameFromKey (key : Bytes) : Option Bytes :=
  if 8 ≤ key.length then some (key.drop 8) else none

/-! ## Errors, panics and integers -/

/-- A Go `error` value met in this file. `errorf op path cause` is the value
built by `fmt.Errorf` with the operation's message, the path and the cause. -/
inductive Error where
  | filerNotFound
  | leveldbNotFound
  | engine (msg : String)
  | codec (msg : String)
  | errorf (op : String) (path : Bytes) (cause : Error)
deriving DecidableEq, Repr

/-- Why a call did not return. -/
inductive Panic where
  | nilDereference
  | sliceOutOfRange
deriving DecidableEq, Repr

/-- The result of running a function that may panic. -/
inductive Outcome (α : Type) where
  | returned (v : α)
  | panicked (p : Panic)
deriving DecidableEq, Repr

/-- The smallest value of a Go `int` on a 64-bit platform. -/
def minInt : Int := -9223372036854775808

/-- The largest value of a Go `int` on a 64-bit platform. -/
def maxInt : Int := 9223372036854775807

/-- Reduction of an integer into the range of a Go `int`: signed arithmetic
wraps around in two's complement. -/
def wrapInt (x : Int) : Int :=
  (x + 9223372036854775808) % 18446744073709551616 - 9223372036854775808

/-! ## Entries and the `filer2` collaborators -/

/-- The type `filer2.Entry`: a path with attributes and a chunk list. The
attribute and chunk types are not inspected by the store. -/
structure Entry (A C : Type) where
  FullPath : Leveldb2.FullPath
  Attr : A
  Chunks : List C
deriving DecidableEq, Repr

/-- Modelled from the spec: the functions of package `filer2` that the store
calls and whose code is not part of this file (`FullPath.DirAndName`,
`NewFullPath`, `Entry.EncodeAttributesAndChunks`,
`Entry.DecodeAttributesAndChunks`). The codec is an opaque serializer:
encoding gives a payload or an error; decoding populates the attributes and
chunks of the receiving entry and gives an error or `nil`. -/
structure Filer2 (A C : Type) where
  DirAndName : FullPath → Bytes × Bytes
  NewFullPath : Bytes → Bytes → FullPath
  EncodeAttributesAndChunks : Entry A C → Except Error Bytes
  DecodeAttributesAndChunks : Entry A C → Bytes → (A × List C) × Option Error

/-- The entry literal `&filer2.Entry{FullPath: p}`: every other field has its
zero value. -/
def Entry.new {A C : Type} [Inhabited A] (p : Leveldb2.FullPath) : Entry A C :=
  ⟨p, default, []⟩

/-- The call `entry.DecodeAttributesAndChunks(data)`: the entry after the
call and the returned error. -/
def Entry.decode {A C : Type} (c : Filer2 A C) (entry : Entry A C)
    (data : Bytes) : Entry A C × Option Error :=
  let r := c.DecodeAttributesAndChunks entry data
  (⟨entry.FullPath, r.1.1, r.1.2⟩, r.2)

/-! ## The ordered key-value engine (`goleveldb`)

The engine is an external collaborator. Its content is a list of key/value
records in strictly ascending key order. -/

/-- Put a record at its place in an ascending list, replacing a record with
the same key. -/
def insertKV (k v : Bytes) : List (Bytes × Bytes) → List (Bytes × Bytes)
  | [] => [(k, v)]
  | (k', v') :: rest =>
    if k < k' then (k, v) :: (k', v') :: rest
    else if k = k' then (k, v) :: rest
    else (k', v') :: insertKV k v rest

/-- Remove the records with key `k`. -/
def eraseKV (k : Bytes) (l : List (Bytes × Bytes)) : List (Bytes × Bytes) :=
  l.filter (fun r => !decide (r.1 = k))

/-- The value of the first record with key `k`. -/
def lookupKV (k : Bytes) : List (Bytes × Bytes) → Option Bytes
  | [] => none
  | (k', v') :: rest => if k' = k then some v' else lookupKV k rest

/-- The content of a `leveldb.DB`: its key/value records, which the engine
keeps in strictly ascending key order (`DB.Sorted`). -/
structure DB where
  kvs : List (Bytes × Bytes)
deriving DecidableEq, Repr

/-- The engine's ordering invariant: keys strictly ascending, hence distinct. -/
def DB.Sorted (db : DB) : Prop := db.kvs.Pairwise (fun a b => a.1 < b.1)

/-- A database with no record. -/
def DB.empty : DB := ⟨[]⟩

/-- Engine `Get`: the value stored at `key`, `leveldb.ErrNotFound` when there
is none, or another error when the engine fails. -/
def DB.Get (db : DB) (fault : Option String) (key : Bytes) : Except Error Bytes :=
  match fault with
  | some msg => .error (.engine msg)
  | none =>
    match lookupKV key db.kvs with
    | some v => .ok v
    | none => .error .leveldbNotFound

/-- Engine `Put`: store `value` at `key`, replacing what was there; a failing
engine reports an error and writes nothing. -/
def DB.Put (db : DB) (fault : Option String) (key value : Bytes) : DB × Option Error :=
  match fault with
  | some msg => (db, some (.engine msg))
  | none => (⟨insertKV key value db.kvs⟩, none)

/-- Engine `Delete`: remove the record at `key`; deleting an absent key is
not an error. -/
def DB.Delete (db : DB) (fault : Option String) (key : Bytes) : DB × Option Error :=
  match fault with
  | some msg => (db, some (.engine msg))
  | none => (⟨eraseKV key db.kvs⟩, none)

/-- Engine `NewIterator` with `Range{Start: start}`: the records with key at
least `start`, in the order of the store (ascending). -/
def DB.NewIterator (db : DB) (start : Bytes) : List (Bytes × Bytes) :=
  db.kvs.filter (fun r => decide (start ≤ r.1))

/-! ## The store operations -/

section Store

variable {A C : Type} [Inhabited A]

/-- Dereference of an `*Entry` that may be nil. -/
def derefEntry (entry : Option (Entry A C)) : Outcome (Entry A C) :=
  match entry with
  | some e => .returned e
  | none => .panicked .nilDereference

/-- Go `InsertEntry`: the store after the call and the returned error. -/
def InsertEntry (c : Filer2 A C) (db : DB) (fault : Option String) (entry : Entry A C) :
    DB × Option Error :=
  let key := genKey (c.DirAndName entry.FullPath).1 (c.DirAndName entry.FullPath).2
  match c.EncodeAttributesAndChunks entry with
  | .error err => (db, some (.errorf "encoding" entry.FullPath err))
  | .ok value =>
    match db.Put fault key value with
    | (db', some err) => (db', some (.errorf "persisting" entry.FullPath err))
    | (db', none) => (db', none)

/-- Go `UpdateEntry`: `return store.InsertEntry(ctx, entry)`. -/
def UpdateEntry (c : Filer2 A C) (db : DB) (fault : Option String) (entry : Entry A C) :
    DB × Option Error :=
  InsertEntry c db fault entry

/-- Go `FindEntry`: the returned pair `(entry, err)`, or a panic. The named
result `entry` is nil until the entry literal is assigned to it, and the
message of the retrieval error reads `entry.FullPath`. -/
def FindEntry (c : Filer2 A C) (db : DB) (fault : Option String) (fullpath : FullPath) :
    Outcome (Option (Entry A C) × Option Error) :=
  let entry : Option (Entry A C) := none
  let key := genKey (c.DirAndName fullpath).1 (c.DirAndName fullpath).2
  match db.Get fault key with
  | .error err =>
    if err = .leveldbNotFound then .returned (none, some .filerNotFound)
    else
      match derefEntry entry with
      | .panicked p => .panicked p
      | .returned e => .returned (none, some (.errorf "get" e.FullPath err))
  | .ok data =>
    let entry : Entry A C := Entry.new fullpath
    match Entry.decode c entry data with
    | (entry, some err) => .returned (some entry, some (.errorf "decode" entry.FullPath err))
    | (entry, none) => .returned (some entry, none)

/-- Go `DeleteEntry`: the store after the call and the returned error. -/
def DeleteEntry (c : Filer2 A C) (db : DB) (fault : Option String) (fullpath : FullPath) :
    DB × Option Error :=
  let key := genKey (c.DirAndName fullpath).1 (c.DirAndName fullpath).2
  match db.Delete fault key with
  | (db', some err) => (db', some (.errorf "delete" fullpath err))
  | (db', none) => (db', none)

/-- The loop `for iter.Next() { ... }` of `ListDirectoryEntries` over the
records the iterator still has to yield, with the current values of `limit`
and `entries`; the result is the pair `(entries, err)` at loop exit. -/
def listLoop (c : Filer2 A C) (fullpath : FullPath) (startFileName : Bytes) (inclusive : Bool)
    (directoryPrefix : Bytes) :
    List (Bytes × Bytes) → Int → List (Entry A C) → Outcome (List (Entry A C) × Option Error)
  | [], _, entries => .returned (entries, none)
  | (key, value) :: rest, limit, entries =>
    if ¬ directoryPrefix <+: key then .returned (entries, none)
    else
      match getNameFromKey key with
      | none => .panicked .sliceOutOfRange
      | some fileName =>
        if fileName = [] then
          listLoop c fullpath startFileName inclusive directoryPrefix rest limit entries
        else if fileName = startFileName ∧ inclusive = false then
          listLoop c fullpath startFileName inclusive directoryPrefix rest limit entries
        else
          let limit := wrapInt (limit - 1)
          if limit < 0 then .returned (entries, none)
          else
            let entry : Entry A C := Entry.new (c.NewFullPath fullpath fileName)
            match Entry.decode c entry value with
            | (_, some decodeErr) => .returned (entries, some decodeErr)
            | (entry, none) =>
              listLoop c fullpath startFileName inclusive directoryPrefix rest limit
                (entries ++ [entry])

/-- Go `ListDirectoryEntries`: the returned pair `(entries, err)`, or a
panic. -/
def ListDirectoryEntries (c : Filer2 A C) (db : DB) (fullpath : FullPath)
    (startFileName : Bytes) (inclusive : Bool) (limit : Int) :
    Outcome (List (Entry A C) × Option Error) :=
  let directoryPrefix := genDirectoryKeyPrefix fullpath []
  let iter := db.NewIterator (genDirectoryKeyPrefix fullpath startFileName)
  listLoop c fullpath startFileName inclusive directoryPrefix iter limit []

end Store

/-! ## The listing, record by record

The functions below describe the result of `ListDirectoryEntries` without the
loop's running counter; `ListDirectoryEntries_eq_collect` relates the two. -/

section Listing

variable {A C : Type} [Inhabited A]

/-- The scan range of a listing: the records the iterator yields from the
lower bound on, up to the first key without the directory's key prefix. -/
def scanRange (db : DB) (fullpath : FullPath) (startFileName : Bytes) : List (Bytes × Bytes) :=
  (db.NewIterator (genDirectoryKeyPrefix fullpath startFileName)).takeWhile
    (fun r => decide (genDirectoryKeyPrefix fullpath [] <+: r.1))

/-- The loop's two `continue` tests on a record: it is accepted when the name
decoded from its key is neither empty nor the excluded start file name. -/
def accepts (startFileName : Bytes) (inclusive : Bool) (r : Bytes × Bytes) : Bool :=
  match getNameFromKey r.1 with
  | none => false
  | some fileName =>
    !decide (fileName = []) && !(decide (fileName = startFileName) && !inclusive)

/-- The eligible records of a listing: the accepted records of the scan
range, in scan order. -/
def eligibleRecords (db : DB) (fullpath : FullPath) (startFileName : Bytes) (inclusive : Bool) :
    List (Bytes × Bytes) :=
  (scanRange db fullpath startFileName).filter (accepts startFileName inclusive)

/-- The entry the loop builds from an accepted record, with the error of
decoding its payload. -/
def decodeRecord (c : Filer2 A C) (fullpath : FullPath) (r : Bytes × Bytes) :
    Entry A C × Option Error :=
  Entry.decode c (Entry.new (c.NewFullPath fullpath (r.1.drop 8))) r.2

/-- Decode at most `n` records in order, stopping at the first payload that
does not decode: the entries decoded so far and that error. -/
def collect (c : Filer2 A C) (fullpath : FullPath) :
    List (Bytes × Bytes) → Nat → List (Entry A C) → List (Entry A C) × Option Error
  | [], _, entries => (entries, none)
  | _ :: _, 0, entries => (entries, none)
  | r :: rest, n + 1, entries =>
    match decodeRecord c fullpath r with
    | (_, some err) => (entries, some err)
    | (entry, none) => collect c fullpath rest n (entries ++ [entry])

/-- The number of records the loop accepts at most when called with `limit`:
`limit` itself when it is positive, none when it is zero or negative, except
that the decrement of the smallest `int` wraps around to the largest. -/
def budget (limit : Int) : Nat :=
  if limit = minInt then 9223372036854775808 else limit.toNat

end Listing

/-! ## A concrete instance of the collaborators -/

/-- The byte `/`. -/
def slash : Byte := 47

/-- The split of a path right after its last `/` (`filepath.Split`). -/
def splitPath (p : Bytes) : Bytes × Bytes :=
  let name := (p.reverse.takeWhile (fun b => decide (b ≠ slash))).reverse
  (p.take (p.length - name.length), name)

/-- Modelled from the spec: `directory(path)` and `name(path)` of a full path
(`FullPath.DirAndName`, not part of this file): the part before the last `/`,
the root directory being `/`, and the part after it. -/
def sampleDirAndName (p : FullPath) : Bytes × Bytes :=
  let dir := (splitPath p).1
  let name := (splitPath p).2
  if dir = [slash] then (dir, name)
  else if dir.length < 1 then ([slash], [])
  else (dir.dropLast, name)

/-- Modelled from the spec: a directory joined with a file name
(`filer2.NewFullPath`, not part of this file). -/
def sampleNewFullPath (dir name : Bytes) : FullPath :=
  if dir.getLast? = some slash then dir ++ name else dir ++ [slash] ++ name

/-- Modelled from the spec: a stand-in for the opaque entry codec, used to
run the store on concrete entries. Attributes are one number and chunks a
list of numbers; the payload is the attribute byte followed by one byte per
chunk. Numbers above 255 do not encode and the empty payload does not
decode. -/
def sampleFiler2 : Filer2 Nat Nat where
  DirAndName := sampleDirAndName
  NewFullPath := sampleNewFullPath
  EncodeAttributesAndChunks := fun e =>
    if e.Attr < 256 ∧ e.Chunks.all (fun x => decide (x < 256)) then
      .ok (Fin.ofNat e.Attr :: e.Chunks.map (fun x => Fin.ofNat x))
    else .error (.codec "encode")
  DecodeAttributesAndChunks := fun e data =>
    match data with
    | [] => ((e.Attr, e.Chunks), some (.codec "decode"))
    | a :: cs => ((a.val, cs.map Fin.val), none)

/-- A file entry at `path` with attribute `attr` and chunks `chunks`. -/
def mkEntry (path : String) (attr : Nat) (chunks : List Nat) : Entry Nat Nat :=
  ⟨str path, attr, chunks⟩

/-- The store after inserting `entries` one after the other, starting from
`db`, with an engine that serves every call. -/
def insertAll (db : DB) (entries : List (Entry Nat Nat)) : DB :=
  entries.foldl (fun d e => (InsertEntry sampleFiler2 d none e).1) db

/-- The example store of the listing claims: `a.txt`, `b.txt`, `c.txt` under
`/d` and `x.txt` under `/e`. -/
def exampleStore : DB :=
  insertAll DB.empty
    [mkEntry "/d/c.txt" 3 [], mkEntry "/e/x.txt" 4 [], mkEntry "/d/a.txt" 1 [7],
     mkEntry "/d/b.txt" 2 []]

/-- The example store with the payload of `/d/a.txt` replaced by the empty
payload, which does not decode. -/
def brokenStore : DB :=
  (exampleStore.Put none (genKey (str "/d") (str "a.txt")) []).1

/-- The full paths of a listing result. -/
def resultPaths {A C : Type} (r : Outcome (List (Entry A C) × Option Error)) :
    Option (List FullPath) :=
  match r with
  | .returned (es, _) => some (es.map (fun e => e.FullPath))
  | .panicked _ => none

/-- A store holding the root entry `/` (directory `/`, empty file name) and
the file `/a`. -/
def rootStore : DB :=
  insertAll DB.empty [mkEntry "/" 9 [], mkEntry "/a" 1 []]

/-! ## The scan cursor -/

/-- The iterator handed out by `NewIterator`: the records it yields and the
number of `Release` calls made on it so far. -/
structure Iterator where
  records : List (Bytes × Bytes)
  released : Nat
deriving DecidableEq, Repr

/-- Engine `NewIterator`, as a cursor that has not been released. -/
def DB.NewCursor (db : DB) (start : Bytes) : Iterator :=
  ⟨db.NewIterator start, 0⟩

/-- Engine `iter.Release()`. -/
def Iterator.Release (it : Iterator) : Iterator :=
  ⟨it.records, it.released + 1⟩

/-- Go `ListDirectoryEntries` together with the cursor it opened: the outcome
of the call and the cursor at the end. Every `break` and the end of the loop
lead to the statement `iter.Release()` after the loop; a panic inside the
loop would leave the function before it, as the call is not deferred. -/
def ListDirectoryEntriesCursor {A C : Type} [Inhabited A] (c : Filer2 A C) (db : DB)
    (fullpath : FullPath) (startFileName : Bytes) (inclusive : Bool) (limit : Int) :
    Outcome (List (Entry A C) × Option Error) × Iterator :=
  let directoryPrefix := genDirectoryKeyPrefix fullpath []
  let iter := db.NewCursor (genDirectoryKeyPrefix fullpath startFileName)
  match listLoop c fullpath startFileName inclusive directoryPrefix iter.records limit [] with
  | .panicked p => (.panicked p, iter)
  | .returned r => (.returned r, iter.Release)

/-! ## Theorems

### The engine model -/

set_option maxRecDepth 100000

theorem insertKV_sorted (k v : Bytes) (l : List (Bytes × Bytes))
    (h : l.Pairwise (fun a b => a.1 < b.1)) :
    (insertKV k v l).Pairwise (fun a b => a.1 < b.1) := by
  induction l with
  | nil => simp [insertKV]
  | cons hd tl ih =>
    obtain ⟨k', v'⟩ := hd
    rw [List.pairwise_cons] at h
    obtain ⟨h1, h2⟩ := h
    unfold insertKV
    by_cases hlt : k < k'
    · rw [if_pos hlt]
      refine List.Pairwise.cons ?_ (List.Pairwise.cons h1 h2)
      intro a ha
      rcases List.mem_cons.1 ha with rfl | ha
      · exact hlt
      · exact lt_trans hlt (h1 a ha)
    · rw [if_neg hlt]
      by_cases heq : k = k'
      · rw [if_pos heq]
        subst heq
        exact List.Pairwise.cons h1 h2
      · rw [if_neg heq]
        have hgt : k' < k := lt_of_le_of_ne (not_lt.1 hlt) (Ne.symm heq)
        refine List.Pairwise.cons ?_ (ih h2)
        intro a ha
        have hmem : ∀ (l : List (Bytes × Bytes)) (a : Bytes × Bytes),
            a ∈ insertKV k v l → a = (k, v) ∨ a ∈ l := by
          intro l
          induction l with
          | nil => intro a ha; simpa [insertKV] using ha
          | cons hd2 tl2 ih2 =>
            intro a ha
            obtain ⟨k2, v2⟩ := hd2
            unfold insertKV at ha
            split_ifs at ha with c1 c2
            · rcases List.mem_cons.1 ha with rfl | ha
              · exact Or.inl rfl
              · exact Or.inr ha
            · rcases List.mem_cons.1 ha with rfl | ha
              · exact Or.inl rfl
              · exact Or.inr (List.mem_cons_of_mem _ ha)
            · rcases List.mem_cons.1 ha with rfl | ha
              · exact Or.inr (List.mem_cons_self _ _)
              · rcases ih2 a ha with h | h
                · exact Or.inl h
                · exact Or.inr (List.mem_cons_of_mem _ h)
        rcases hmem tl a ha with rfl | h
        · exact hgt
        · exact h1 a h

/-- The engine keeps its keys in ascending order through `Put`. -/
theorem Put_sorted (db : DB) (fault : Option String) (key value : Bytes) (h : db.Sorted) :
    (db.Put fault key value).1.Sorted := by
  cases fault with
  | some msg => exact h
  | none => exact insertKV_sorted key value db.kvs h

/-- The engine keeps its keys in ascending order through `Delete`. -/
theorem Delete_sorted (db : DB) (fault : Option String) (key : Bytes) (h : db.Sorted) :
    (db.Delete fault key).1.Sorted := by
  cases fault with
  | some msg => exact h
  | none => exact List.Pairwise.filter _ h

/-- The store operations keep the engine's order: `InsertEntry`. -/
theorem InsertEntry_sorted {A C : Type} (c : Filer2 A C) (db : DB) (fault : Option String)
    (e : Entry A C) (h : db.Sorted) : (InsertEntry c db fault e).1.Sorted := by
  unfold InsertEntry
  cases henc : c.EncodeAttributesAndChunks e with
  | error err => exact h
  | ok value =>
    cases fault with
    | some msg => exact h
    | none => exact insertKV_sorted _ value db.kvs h

/-- The iterator yields keys in ascending order on a sorted store. -/
theorem NewIterator_sorted (db : DB) (start : Bytes) (h : db.Sorted) :
    (db.NewIterator start).Pairwise (fun a b => a.1 < b.1) :=
  List.Pairwise.filter _ h

/-! ### The key encoder -/

theorem word4_length (w : Nat) : (word4 w).length = 4 := rfl

/-- The digest has 16 bytes, whatever the directory. -/
theorem hashToBytes_length (dir : Bytes) : (hashToBytes dir).length = 16 := by
  simp [hashToBytes, md5Sum, word4_length]

/-- The digest of `/d`. -/
theorem hashToBytes_d :
    hashToBytes (str "/d") =
      [12, 96, 111, 153, 41, 171, 13, 228, 185, 209, 150, 28, 229, 223, 218, 223] := by
  decide

/-- The digest of `/e`. -/
theorem hashToBytes_e :
    hashToBytes (str "/e") =
      [77, 176, 13, 150, 60, 36, 152, 228, 231, 189, 244, 159, 241, 255, 17, 163] := by
  decide

/-- What the decoder returns on an encoded key: the last 8 bytes of the
directory digest followed by the file name. -/
theorem getNameFromKey_genKey (d n : Bytes) :
    getNameFromKey (genKey d n) = some ((hashToBytes d).drop 8 ++ n) := by
  have h := hashToBytes_length d
  unfold getNameFromKey genKey
  rw [if_pos (by rw [List.length_append]; omega)]
  rw [List.drop_append_of_le_length (by omega)]

/-- The decoder never returns the encoded file name. -/
theorem getNameFromKey_genKey_ne (d n : Bytes) :
    getNameFromKey (genKey d n) ≠ some n := by
  rw [getNameFromKey_genKey]
  intro h
  have hlen := congrArg List.length (Option.some.inj h)
  have h16 := hashToBytes_length d
  simp [List.length_append, List.length_drop, h16] at hlen

/-- C1, evaluated at d = "/d", n = "a.txt": `getNameFromKey (genKey d n)` is
not the file name `a.txt` but the last 8 bytes of the digest of `/d` followed
by `a.txt`, because the decoder slices the key at offset 8 and not at the
digest length 16. -/
theorem C1_getNameFromKey_genKey_at_d_a :
    getNameFromKey (genKey (str "/d") (str "a.txt"))
        = some ([185, 209, 150, 28, 229, 223, 218, 223] ++ str "a.txt")
      ∧ getNameFromKey (genKey (str "/d") (str "a.txt")) ≠ some (str "a.txt") := by
  decide

/-! ### Point operations -/

theorem lookupKV_insertKV_self (k v : Bytes) (l : List (Bytes × Bytes)) :
    lookupKV k (insertKV k v l) = some v := by
  induction l with
  | nil => simp [insertKV, lookupKV]
  | cons hd tl ih =>
    obtain ⟨k', v'⟩ := hd
    unfold insertKV
    split_ifs with h1 h2
    · simp [lookupKV]
    · simp [lookupKV]
    · have hne : ¬ k' = k := fun h => h2 h.symm
      simp [lookupKV, hne, ih]

theorem lookupKV_eraseKV_self (k : Bytes) (l : List (Bytes × Bytes)) :
    lookupKV k (eraseKV k l) = none := by
  induction l with
  | nil => simp [eraseKV, lookupKV]
  | cons hd tl ih =>
    obtain ⟨k', v'⟩ := hd
    by_cases h : k' = k
    · simpa [eraseKV, h] using ih
    · simpa [eraseKV, h, lookupKV] using ih

theorem eraseKV_of_lookupKV_none (k : Bytes) (l : List (Bytes × Bytes))
    (h : lookupKV k l = none) : eraseKV k l = l := by
  induction l with
  | nil => simp [eraseKV]
  | cons hd tl ih =>
    obtain ⟨k', v'⟩ := hd
    unfold lookupKV at h
    split_ifs at h with hk
    have ih2 := ih h
    unfold eraseKV at ih2 ⊢
    rw [List.filter_cons_of_pos (by simpa using hk), ih2]

theorem eraseKV_eraseKV (k : Bytes) (l : List (Bytes × Bytes)) :
    eraseKV k (eraseKV k l) = eraseKV k l :=
  eraseKV_of_lookupKV_none k _ (lookupKV_eraseKV_self k l)

/-- A successful `InsertEntry` was served by the engine and wrote the encoded
payload at the entry's key. -/
theorem InsertEntry_ok {A C : Type} (c : Filer2 A C) (db : DB) (fault : Option String)
    (e : Entry A C) (value : Bytes) (henc : c.EncodeAttributesAndChunks e = .ok value)
    (hins : (InsertEntry c db fault e).2 = none) :
    (InsertEntry c db fault e).1
      = ⟨insertKV (genKey (c.DirAndName e.FullPath).1 (c.DirAndName e.FullPath).2) value
          db.kvs⟩ := by
  cases fault with
  | some msg => simp [InsertEntry, henc, DB.Put] at hins
  | none => simp [InsertEntry, henc, DB.Put]

/-- The result of `FindEntry` on a store whose record at the path's key
decodes. -/
theorem FindEntry_of_lookup {A C : Type} [Inhabited A] (c : Filer2 A C) (db : DB)
    (p : FullPath) (value : Bytes) (a : A) (chunks : List C)
    (hget : lookupKV (genKey (c.DirAndName p).1 (c.DirAndName p).2) db.kvs = some value)
    (hdec : c.DecodeAttributesAndChunks (Entry.new p) value = ((a, chunks), none)) :
    FindEntry c db none p = .returned (some ⟨p, a, chunks⟩, none) := by
  unfold FindEntry
  simp only [DB.Get, hget, Entry.decode, hdec]
  rfl

/-- C5. Find after insert: when the entry `e` encodes to a payload that
decodes back to the attributes and chunks of `e`, and `InsertEntry e` returns
no error, then `FindEntry e.FullPath` on the resulting store (the engine
serving the read) returns the entry `e` itself (same path, attributes and
chunks) and no error. -/
theorem C5_find_after_insert {A C : Type} [Inhabited A] (c : Filer2 A C) (db : DB)
    (fault : Option String) (e : Entry A C) (value : Bytes)
    (henc : c.EncodeAttributesAndChunks e = .ok value)
    (hdec : c.DecodeAttributesAndChunks (Entry.new e.FullPath) value
      = ((e.Attr, e.Chunks), none))
    (hins : (InsertEntry c db fault e).2 = none) :
    FindEntry c (InsertEntry c db fault e).1 none e.FullPath = .returned (some e, none) := by
  rw [InsertEntry_ok c db fault e value henc hins]
  exact FindEntry_of_lookup c _ e.FullPath value e.Attr e.Chunks
    (lookupKV_insertKV_self _ _ _) hdec

/-- C6. Find after delete: when `DeleteEntry p` returns no error, `FindEntry p`
on the resulting store returns a nil entry and `filer2.ErrNotFound`, whatever
the store held before. -/
theorem C6_find_after_delete {A C : Type} [Inhabited A] (c : Filer2 A C) (db : DB)
    (fault : Option String) (p : FullPath) (hdel : (DeleteEntry c db fault p).2 = none) :
    FindEntry c (DeleteEntry c db fault p).1 none p
      = .returned (none, some .filerNotFound) := by
  cases fault with
  | some msg => simp [DeleteEntry, DB.Delete] at hdel
  | none =>
    simp [DeleteEntry, DB.Delete, FindEntry, DB.Get, lookupKV_eraseKV_self]

/-- C7. Idempotent delete: when no record is stored for the path `p`,
`DeleteEntry p` (the engine serving the call) returns no error and the same
store; and for every store, `DeleteEntry p` applied twice gives the same
store and the same nil error as applied once. -/
theorem C7_delete_idempotent {A C : Type} (c : Filer2 A C) (db : DB) (p : FullPath) :
    (lookupKV (genKey (c.DirAndName p).1 (c.DirAndName p).2) db.kvs = none →
        DeleteEntry c db none p = (db, none))
      ∧ DeleteEntry c (DeleteEntry c db none p).1 none p = DeleteEntry c db none p
      ∧ (DeleteEntry c db none p).2 = none := by
  refine ⟨?_, ?_, ?_⟩
  · intro h
    simp [DeleteEntry, DB.Delete, eraseKV_of_lookupKV_none _ _ h]
  · simp [DeleteEntry, DB.Delete, eraseKV_eraseKV]
  · simp [DeleteEntry, DB.Delete]

/-- C8. Update replaces wholesale: `UpdateEntry` has the result of
`InsertEntry` on every store and entry; and when `e1` and `e2` have the same
path, `InsertEntry e1` then `UpdateEntry e2` both return no error, and the
payload of `e2` decodes back to its attributes and chunks, `FindEntry` on
that path returns `e2` (its attributes and chunks, nothing of `e1`). -/
theorem C8_update_replaces {A C : Type} [Inhabited A] (c : Filer2 A C) (db : DB)
    (f1 f2 : Option String) (e1 e2 : Entry A C) (value : Bytes)
    (hpath : e1.FullPath = e2.FullPath)
    (henc : c.EncodeAttributesAndChunks e2 = .ok value)
    (hdec : c.DecodeAttributesAndChunks (Entry.new e2.FullPath) value
      = ((e2.Attr, e2.Chunks), none))
    (_h1 : (InsertEntry c db f1 e1).2 = none)
    (h2 : (UpdateEntry c (InsertEntry c db f1 e1).1 f2 e2).2 = none) :
    (∀ (db' : DB) (f : Option String) (e : Entry A C),
        UpdateEntry c db' f e = InsertEntry c db' f e)
      ∧ FindEntry c (UpdateEntry c (InsertEntry c db f1 e1).1 f2 e2).1 none e1.FullPath
          = .returned (some e2, none) := by
  refine ⟨fun _ _ _ => rfl, ?_⟩
  rw [hpath]
  have h3 : (InsertEntry c (InsertEntry c db f1 e1).1 f2 e2).2 = none := h2
  show FindEntry c (InsertEntry c (InsertEntry c db f1 e1).1 f2 e2).1 none e2.FullPath = _
  rw [InsertEntry_ok c _ f2 e2 value henc h3]
  exact FindEntry_of_lookup c _ e2.FullPath value e2.Attr e2.Chunks
    (lookupKV_insertKV_self _ _ _) hdec

/-- When the engine's `Get` fails with an error other than not-found,
`FindEntry` panics: the error message reads `entry.FullPath` while `entry` is
still nil. -/
theorem FindEntry_engine_failure {A C : Type} [Inhabited A] (c : Filer2 A C) (db : DB)
    (msg : String) (p : FullPath) :
    FindEntry c db (some msg) p = .panicked .nilDereference := by
  simp [FindEntry, DB.Get, derefEntry]

/-! ### The listing loop -/

theorem wrapInt_of_range (x : Int) (h1 : minInt ≤ x) (h2 : x ≤ maxInt) : wrapInt x = x := by
  unfold wrapInt
  unfold minInt at h1
  unfold maxInt at h2
  omega

/-- Decrementing the smallest `int` gives the largest. -/
theorem wrapInt_minInt_pred : wrapInt (minInt - 1) = maxInt := by decide

theorem collect_nil {A C : Type} [Inhabited A] (c : Filer2 A C) (fullpath : FullPath) (n : Nat)
    (entries : List (Entry A C)) : collect c fullpath [] n entries = (entries, none) := by
  cases n <;> rfl

/-- The loop against the record-by-record description: on every remaining
iterator content and every `int` value of `limit`, the loop returns (it does
not panic) what `collect` gives on the accepted records of the leading run of
keys with the directory prefix, with `budget limit` as the bound. -/
theorem listLoop_eq_collect {A C : Type} [Inhabited A] (c : Filer2 A C) (fullpath : FullPath)
    (startFileName : Bytes) (inclusive : Bool) (dp : Bytes) (hdp : 8 ≤ dp.length) :
    ∀ (items : List (Bytes × Bytes)) (limit : Int) (entries : List (Entry A C)),
      minInt ≤ limit → limit ≤ maxInt →
      listLoop c fullpath startFileName inclusive dp items limit entries
        = .returned (collect c fullpath
            ((items.takeWhile (fun r => decide (dp <+: r.1))).filter
              (accepts startFileName inclusive))
            (budget limit) entries) := by
  intro items
  induction items with
  | nil =>
    intro limit entries _ _
    simp [listLoop, collect_nil]
  | cons hd tl ih =>
    intro limit entries h1 h2
    obtain ⟨key, value⟩ := hd
    unfold listLoop
    by_cases hp : dp <+: key
    · have hlen : 8 ≤ key.length := le_trans hdp hp.length_le
      have hname : getNameFromKey key = some (key.drop 8) := by
        simp [getNameFromKey, hlen]
      rw [if_neg (not_not.2 hp)]
      simp only [hname]
      rw [List.takeWhile_cons_of_pos (by simpa using hp)]
      by_cases he : key.drop 8 = []
      · have hacc : accepts startFileName inclusive (key, value) = false := by
          simp [accepts, hname, he]
        rw [if_pos he, List.filter_cons_of_neg (by simp [hacc])]
        exact ih limit entries h1 h2
      · rw [if_neg he]
        by_cases hs : key.drop 8 = startFileName ∧ inclusive = false
        · have hacc : accepts startFileName inclusive (key, value) = false := by
            simp [accepts, hname, hs.1, hs.2]
          rw [if_pos hs, List.filter_cons_of_neg (by simp [hacc])]
          exact ih limit entries h1 h2
        · have hacc : accepts startFileName inclusive (key, value) = true := by
            simp only [accepts, hname]
            rcases Bool.eq_false_or_eq_true inclusive with hi | hi
            · simp [he, hi]
            · have hne : ¬ key.drop 8 = startFileName := fun h => hs ⟨h, hi⟩
              simp [he, hi, hne]
          rw [if_neg hs, List.filter_cons_of_pos hacc]
          by_cases hmin : limit = minInt
          · subst hmin
            have hb : budget minInt = 9223372036854775807 + 1 := by decide
            rw [wrapInt_minInt_pred, hb]
            simp only [collect, decodeRecord]
            rw [if_neg (by decide)]
            cases hd : Entry.decode c (Entry.new (c.NewFullPath fullpath (key.drop 8))) value with
            | mk e err =>
              cases err with
              | some err => rfl
              | none =>
                simp only []
                rw [ih maxInt (entries ++ [e]) (by decide) (by decide)]
                rfl
          · have hgt : minInt < limit := lt_of_le_of_ne h1 (Ne.symm hmin)
            have hw : wrapInt (limit - 1) = limit - 1 := by
              apply wrapInt_of_range
              · unfold minInt at hgt ⊢; omega
              · unfold maxInt at h2 ⊢; omega
            rw [hw]
            by_cases hpos : limit - 1 < 0
            · have hb : budget limit = 0 := by
                simp only [budget, if_neg hmin]
                omega
              simp [hpos, hb, collect]
            · have hb : budget limit = budget (limit - 1) + 1 := by
                have hmin2 : ¬ limit - 1 = minInt := by unfold minInt; omega
                simp only [budget, if_neg hmin, if_neg hmin2]
                omega
              rw [if_neg hpos, hb]
              simp only [collect, decodeRecord]
              cases hd : Entry.decode c (Entry.new (c.NewFullPath fullpath (key.drop 8))) value with
              | mk e err =>
                cases err with
                | some err => rfl
                | none =>
                  simp only []
                  rw [ih (limit - 1) (entries ++ [e]) (by unfold minInt; omega)
                    (by unfold maxInt at h2 ⊢; omega)]
    · rw [if_pos hp, List.takeWhile_cons_of_neg (by simpa using hp)]
      simp [collect_nil]

/-- The listing against the record-by-record description, for
every store, directory, start file name, flag and `int` value of `limit`: the
call returns (it does not panic) what `collect` gives on the eligible records
with `budget limit` as the bound. -/
theorem ListDirectoryEntries_eq_collect {A C : Type} [Inhabited A] (c : Filer2 A C) (db : DB)
    (fullpath : FullPath) (startFileName : Bytes) (inclusive : Bool) (limit : Int)
    (h1 : minInt ≤ limit) (h2 : limit ≤ maxInt) :
    ListDirectoryEntries c db fullpath startFileName inclusive limit
      = .returned (collect c fullpath (eligibleRecords db fullpath startFileName inclusive)
          (budget limit) []) := by
  have hdp : 8 ≤ (genDirectoryKeyPrefix fullpath []).length := by
    simp [genDirectoryKeyPrefix, hashToBytes_length]
  unfold ListDirectoryEntries eligibleRecords scanRange
  exact listLoop_eq_collect c fullpath startFileName inclusive _ hdp _ limit [] h1 h2

/-- When the first `n` records all decode, `collect` returns their entries,
in order, and no error. -/
theorem collect_of_decodable {A C : Type} [Inhabited A] (c : Filer2 A C) (fullpath : FullPath) :
    ∀ (l : List (Bytes × Bytes)) (n : Nat) (entries : List (Entry A C)),
      (∀ r ∈ l.take n, (decodeRecord c fullpath r).2 = none) →
      collect c fullpath l n entries
        = (entries ++ (l.take n).map (fun r => (decodeRecord c fullpath r).1), none) := by
  intro l
  induction l with
  | nil => intro n entries _; simp [collect_nil]
  | cons r rest ih =>
    intro n entries h
    cases n with
    | zero => simp [collect]
    | succ n =>
      have hr : (decodeRecord c fullpath r).2 = none := h r (by simp)
      have hrest : ∀ x ∈ rest.take n, (decodeRecord c fullpath x).2 = none :=
        fun x hx => h x (by simp [hx])
      simp only [collect]
      cases hd : decodeRecord c fullpath r with
      | mk e err =>
        rw [hd] at hr
        simp only at hr
        subst hr
        simp only []
        rw [ih n (entries ++ [e]) hrest]
        simp [hd]

/-- When the records `pre` decode and the next record `bad` does not, and
`bad` is within the bound, `collect` returns the entries of `pre`, in order,
with the error of `bad`, and nothing of what follows. -/
theorem collect_of_failure {A C : Type} [Inhabited A] (c : Filer2 A C) (fullpath : FullPath)
    (bad : Bytes × Bytes) (post : List (Bytes × Bytes)) (err : Error)
    (hbad : (decodeRecord c fullpath bad).2 = some err) :
    ∀ (pre : List (Bytes × Bytes)) (n : Nat) (entries : List (Entry A C)),
      (∀ r ∈ pre, (decodeRecord c fullpath r).2 = none) → pre.length < n →
      collect c fullpath (pre ++ bad :: post) n entries
        = (entries ++ pre.map (fun r => (decodeRecord c fullpath r).1), some err) := by
  intro pre
  induction pre with
  | nil =>
    intro n entries _ hn
    cases n with
    | zero => simp at hn
    | succ n =>
      simp only [List.nil_append, collect]
      cases hd : decodeRecord c fullpath bad with
      | mk e er =>
        rw [hd] at hbad
        simp only at hbad
        subst hbad
        simp
  | cons r rest ih =>
    intro n entries h hn
    cases n with
    | zero => simp at hn
    | succ n =>
      have hr : (decodeRecord c fullpath r).2 = none := h r (by simp)
      have hrest : ∀ x ∈ rest, (decodeRecord c fullpath x).2 = none :=
        fun x hx => h x (by simp [hx])
      simp only [List.cons_append, collect]
      cases hd : decodeRecord c fullpath r with
      | mk e er =>
        rw [hd] at hr
        simp only at hr
        subst hr
        simp only []
        have hih := ih n (entries ++ [e]) hrest (by simpa using hn)
        show collect c fullpath (rest ++ bad :: post) n (entries ++ [e]) = _
        rw [hih]
        simp [hd]

/-- Limit enforcement away from the smallest `int`: for every `limit` above
`minInt`, when the eligible records within the limit decode, the listing
returns the entries of the first `max(limit, 0)` eligible records, in scan
order, and a nil error. -/
theorem ListDirectoryEntries_of_decodable {A C : Type} [Inhabited A] (c : Filer2 A C) (db : DB)
    (fullpath : FullPath) (startFileName : Bytes) (inclusive : Bool) (limit : Int)
    (h1 : minInt < limit) (h2 : limit ≤ maxInt)
    (hdec : ∀ r ∈ (eligibleRecords db fullpath startFileName inclusive).take limit.toNat,
      (decodeRecord c fullpath r).2 = none) :
    ListDirectoryEntries c db fullpath startFileName inclusive limit
      = .returned
          (((eligibleRecords db fullpath startFileName inclusive).take limit.toNat).map
            (fun r => (decodeRecord c fullpath r).1), none) := by
  rw [ListDirectoryEntries_eq_collect c db fullpath startFileName inclusive limit (le_of_lt h1) h2]
  have hb : budget limit = limit.toNat := by simp [budget, ne_of_gt h1]
  rw [hb, collect_of_decodable c fullpath _ _ [] hdec]
  simp

/-- The number of entries returned under the hypotheses of
`ListDirectoryEntries_of_decodable`: `min(max(limit, 0), eligible)`. -/
theorem length_take_toNat (limit : Int) (l : List (Bytes × Bytes)) :
    ((l.take limit.toNat).length : Int) = min (max limit 0) (l.length : Int) := by
  rw [List.length_take]
  omega

/-- Partial result with the error: when the eligible records are `pre`, then `bad`, then `post`, the records of `pre`
decode, `bad` does not, and `bad` is within the limit, the listing returns
the entries of `pre`, in order, with the decode error of `bad`. -/
theorem ListDirectoryEntries_of_failure {A C : Type} [Inhabited A] (c : Filer2 A C) (db : DB)
    (fullpath : FullPath) (startFileName : Bytes) (inclusive : Bool) (limit : Int)
    (pre post : List (Bytes × Bytes)) (bad : Bytes × Bytes) (err : Error)
    (h2 : limit ≤ maxInt)
    (helig : eligibleRecords db fullpath startFileName inclusive = pre ++ bad :: post)
    (hpre : ∀ r ∈ pre, (decodeRecord c fullpath r).2 = none)
    (hbad : (decodeRecord c fullpath bad).2 = some err)
    (hk : (pre.length : Int) + 1 ≤ limit) :
    ListDirectoryEntries c db fullpath startFileName inclusive limit
      = .returned (pre.map (fun r => (decodeRecord c fullpath r).1), some err) := by
  have h1 : minInt < limit := by unfold minInt; omega
  rw [ListDirectoryEntries_eq_collect c db fullpath startFileName inclusive limit (le_of_lt h1) h2,
    helig]
  have hb : budget limit = limit.toNat := by simp [budget, ne_of_gt h1]
  rw [hb, collect_of_failure c fullpath bad post err hbad pre _ [] hpre (by omega)]
  simp

/-! ### The claims at concrete inputs -/

/-- The digest tail that the decoder leaves in front of every name under
`/d`: bytes 8 to 15 of the digest of `/d`. -/
theorem hashToBytes_d_drop :
    (hashToBytes (str "/d")).drop 8 = [185, 209, 150, 28, 229, 223, 218, 223] := by
  decide

/-- C2, evaluated at the spec's example (a.txt, b.txt, c.txt under /d and a
file under /e; list /d from "" inclusive with limit 10): three entries come
back in key order and none of /e, but their paths are not `/d/a.txt`,
`/d/b.txt`, `/d/c.txt`: each name is preceded by the last 8 bytes of the
digest of `/d`. -/
theorem C2_listing_at_example :
    resultPaths (ListDirectoryEntries sampleFiler2 exampleStore (str "/d") [] true 10)
        = some
          [str "/d/" ++ [185, 209, 150, 28, 229, 223, 218, 223] ++ str "a.txt",
           str "/d/" ++ [185, 209, 150, 28, 229, 223, 218, 223] ++ str "b.txt",
           str "/d/" ++ [185, 209, 150, 28, 229, 223, 218, 223] ++ str "c.txt"]
      ∧ resultPaths (ListDirectoryEntries sampleFiler2 exampleStore (str "/d") [] true 10)
        ≠ some [str "/d/a.txt", str "/d/b.txt", str "/d/c.txt"] := by
  decide

/-- C3, evaluated at the spec's example (list /d from "b.txt", exclusive,
limit 10): the record of b.txt (attribute 2) is returned, followed by the
record of c.txt, so the start file is not excluded; the name decoded from its
key is never equal to the start file name. -/
theorem C3_exclusive_start_at_example :
    ListDirectoryEntries sampleFiler2 exampleStore (str "/d") (str "b.txt") false 10
        = .returned
          ([⟨str "/d/" ++ [185, 209, 150, 28, 229, 223, 218, 223] ++ str "b.txt", 2, []⟩,
            ⟨str "/d/" ++ [185, 209, 150, 28, 229, 223, 218, 223] ++ str "c.txt", 3, []⟩],
           none)
      ∧ lookupKV (genKey (str "/d") (str "b.txt")) exampleStore.kvs = some [2] := by
  decide

/-- C4, evaluated at limit = -9223372036854775808 on the example store (three
eligible records under /d): the call returns three entries, not
min(max(limit, 0), 3) = 0, because `limit--` wraps around to the largest
`int`; with limit 2 it returns two and with limit 0 none. -/
theorem C4_limit_at_minInt :
    (resultPaths (ListDirectoryEntries sampleFiler2 exampleStore (str "/d") [] true
        (-9223372036854775808))).map List.length = some 3
      ∧ (eligibleRecords exampleStore (str "/d") [] true).length = 3
      ∧ min (max (-9223372036854775808 : Int) 0) 3 = 0
      ∧ (resultPaths (ListDirectoryEntries sampleFiler2 exampleStore (str "/d") [] true
          2)).map List.length = some 2
      ∧ (resultPaths (ListDirectoryEntries sampleFiler2 exampleStore (str "/d") [] true
          0)).map List.length = some 0 := by
  decide

/-- C9, evaluated at limit = -9223372036854775808 on the store whose first
record under /d does not decode: no record is within the limit, yet the call
returns the decode error (with no entry), because `limit--` wraps around;
with limit 0 the error is nil. -/
theorem C9_error_at_minInt :
    ListDirectoryEntries sampleFiler2 brokenStore (str "/d") [] true (-9223372036854775808)
        = .returned ([], some (.codec "decode"))
      ∧ ListDirectoryEntries sampleFiler2 brokenStore (str "/d") [] true 0
        = .returned ([], none) := by
  decide

/-- C10, evaluated at the path /d/a.txt with the engine's `Get` failing with
an i/o error: `FindEntry` does not return a nil entry and an error, it
panics on the nil `entry` that its error message dereferences. -/
theorem C10_find_at_engine_failure :
    FindEntry sampleFiler2 exampleStore (some "i/o error") (str "/d/a.txt")
      = .panicked .nilDereference := by
  decide

/-! ### Witnesses -/

theorem C5_find_after_insert_witness :
    sampleFiler2.EncodeAttributesAndChunks (mkEntry "/d/n.txt" 5 [7, 8]) = .ok [5, 7, 8]
      ∧ (InsertEntry sampleFiler2 exampleStore none (mkEntry "/d/n.txt" 5 [7, 8])).2 = none
      ∧ FindEntry sampleFiler2
          (InsertEntry sampleFiler2 exampleStore none (mkEntry "/d/n.txt" 5 [7, 8])).1 none
          (mkEntry "/d/n.txt" 5 [7, 8]).FullPath
        = .returned (some (mkEntry "/d/n.txt" 5 [7, 8]), none) :=
  ⟨rfl, by decide,
    C5_find_after_insert sampleFiler2 exampleStore none (mkEntry "/d/n.txt" 5 [7, 8]) [5, 7, 8]
      rfl (by decide) (by decide)⟩

theorem C6_find_after_delete_witness :
    (DeleteEntry sampleFiler2 exampleStore none (str "/d/a.txt")).2 = none
      ∧ FindEntry sampleFiler2 (DeleteEntry sampleFiler2 exampleStore none (str "/d/a.txt")).1
          none (str "/d/a.txt")
        = .returned (none, some .filerNotFound) :=
  ⟨by decide, C6_find_after_delete sampleFiler2 exampleStore none (str "/d/a.txt") (by decide)⟩

theorem C7_delete_idempotent_witness :
    lookupKV (genKey (sampleFiler2.DirAndName (str "/d/z.txt")).1
        (sampleFiler2.DirAndName (str "/d/z.txt")).2) exampleStore.kvs = none
      ∧ DeleteEntry sampleFiler2 exampleStore none (str "/d/z.txt") = (exampleStore, none) :=
  ⟨by decide, (C7_delete_idempotent sampleFiler2 exampleStore (str "/d/z.txt")).1 (by decide)⟩

theorem C8_update_replaces_witness :
    (InsertEntry sampleFiler2 DB.empty none (mkEntry "/a/b" 1 [7])).2 = none
      ∧ (UpdateEntry sampleFiler2 (InsertEntry sampleFiler2 DB.empty none (mkEntry "/a/b" 1 [7])).1
          none (mkEntry "/a/b" 1 [])).2 = none
      ∧ FindEntry sampleFiler2
          (UpdateEntry sampleFiler2
            (InsertEntry sampleFiler2 DB.empty none (mkEntry "/a/b" 1 [7])).1 none
            (mkEntry "/a/b" 1 [])).1 none (mkEntry "/a/b" 1 [7]).FullPath
        = .returned (some (mkEntry "/a/b" 1 []), none) :=
  ⟨by decide, by decide,
    (C8_update_replaces sampleFiler2 DB.empty none none (mkEntry "/a/b" 1 [7])
      (mkEntry "/a/b" 1 []) [1] rfl rfl (by decide) (by decide) (by decide)).2⟩

/-! ### The byte order on keys -/

theorem cons_lt_cons_iff (a b : Byte) (l m : Bytes) :
    a :: l < b :: m ↔ a < b ∨ (a = b ∧ l < m) := by
  constructor
  · intro h
    cases h with
    | cons h => exact Or.inr ⟨rfl, h⟩
    | rel h => exact Or.inl h
  · rintro (h | ⟨rfl, h⟩)
    · exact List.Lex.rel h
    · exact List.Lex.cons h

/-- A common front part does not change the order of two byte strings. -/
theorem append_lt_append_iff (h s n : Bytes) : h ++ s < h ++ n ↔ s < n := by
  induction h with
  | nil => simp
  | cons a h ih =>
    simp only [List.cons_append, cons_lt_cons_iff, lt_irrefl, false_or, true_and, ih]

theorem append_le_append_iff (h s n : Bytes) : h ++ s ≤ h ++ n ↔ s ≤ n := by
  rw [← not_lt, ← not_lt, append_lt_append_iff]

theorem bytes_nil_le (k : Bytes) : ([] : Bytes) ≤ k := by
  cases k with
  | nil => exact le_refl _
  | cons a l => exact le_of_lt List.Lex.nil

/-- A byte string is at most every string it starts. -/
theorem le_of_isPrefix (p k : Bytes) (h : p <+: k) : p ≤ k := by
  obtain ⟨t, rfl⟩ := h
  have := (append_le_append_iff p [] t).2 (bytes_nil_le t)
  simpa using this

/-- A byte string between `p` and a string that starts with `p` starts with
`p`. -/
theorem isPrefix_of_between (p : Bytes) :
    ∀ (k y : Bytes), p ≤ k → k ≤ p ++ y → p <+: k := by
  induction p with
  | nil => intro k y _ _; exact List.nil_prefix
  | cons a p ih =>
    intro k y h1 h2
    cases k with
    | nil => exact absurd h1 (not_le.2 List.Lex.nil)
    | cons b k =>
      rw [← not_lt, cons_lt_cons_iff] at h1
      rw [← not_lt, List.cons_append, cons_lt_cons_iff] at h2
      push_neg at h1 h2
      have hab : a = b := le_antisymm h1.1 h2.1
      subst hab
      exact (List.cons_prefix_cons).2 ⟨rfl, ih k y (h1.2 rfl) (h2.2 rfl)⟩

/-- The strings that start with `p` form an interval of the byte order. -/
theorem isPrefix_of_le_of_le (p k1 k2 k3 : Bytes) (h12 : k1 ≤ k2) (h23 : k2 ≤ k3)
    (h1 : p <+: k1) (h3 : p <+: k3) : p <+: k2 := by
  obtain ⟨y, rfl⟩ := h3
  exact isPrefix_of_between p k2 y (le_trans (le_of_isPrefix p k1 h1) h12) h23

/-! ### Key layout -/

theorem genDirectoryKeyPrefix_eq (fullpath : FullPath) (s : Bytes) :
    genDirectoryKeyPrefix fullpath s = hashToBytes fullpath ++ s := by
  unfold genDirectoryKeyPrefix
  cases s with
  | nil => simp
  | cons a s => simp

/-- C12. Key layout: `genKey d n` is the digest of `d` followed by the bytes
of `n`; the digest has 16 bytes, so the key has `16 + len(n)` bytes; its
first 16 bytes are the digest of `d`, the same for every file name; and the
rest of the key is `n`. -/
theorem C12_key_layout (d n : Bytes) :
    genKey d n = hashToBytes d ++ n
      ∧ (hashToBytes d).length = 16
      ∧ (genKey d n).length = 16 + n.length
      ∧ (genKey d n).take 16 = hashToBytes d
      ∧ (∀ n' : Bytes, (genKey d n').take 16 = (genKey d n).take 16)
      ∧ (genKey d n).drop 16 = n := by
  have h16 := hashToBytes_length d
  have htake : ∀ m : Bytes, (genKey d m).take 16 = hashToBytes d := by
    intro m
    unfold genKey
    rw [List.take_append_of_le_length (by omega), List.take_of_length_le (by omega)]
  refine ⟨rfl, h16, ?_, htake n, ?_, ?_⟩
  · simp [genKey, h16]
  · intro n'
    rw [htake n', htake n]
  · unfold genKey
    rw [List.drop_append_of_le_length (by omega), List.drop_of_length_le (by omega)]
    rfl

/-- C13. The scan lower bound agrees with the key encoder: for every
directory `D` and start file name `s`, empty or not,
`genDirectoryKeyPrefix D s` is the digest of `D` followed by `s`, that is
`genKey D s`; `genDirectoryKeyPrefix D ""` starts every `genKey D n`; and
`genDirectoryKeyPrefix D s <= genKey D n` in the byte order exactly when
`s <= n`. -/
theorem C13_lower_bound (fullpath : FullPath) (s n : Bytes) :
    genDirectoryKeyPrefix fullpath s = hashToBytes fullpath ++ s
      ∧ (hashToBytes fullpath).length = 16
      ∧ genDirectoryKeyPrefix fullpath s = genKey fullpath s
      ∧ genDirectoryKeyPrefix fullpath [] <+: genKey fullpath n
      ∧ (genDirectoryKeyPrefix fullpath s ≤ genKey fullpath n ↔ s ≤ n) := by
  refine ⟨genDirectoryKeyPrefix_eq fullpath s, hashToBytes_length fullpath,
    genDirectoryKeyPrefix_eq fullpath s, ?_, ?_⟩
  · rw [genDirectoryKeyPrefix_eq, List.append_nil]
    exact List.prefix_append _ _
  · rw [genDirectoryKeyPrefix_eq]
    exact append_le_append_iff _ s n

/-- C20. Key injectivity up to digest collisions: two keys are equal exactly
when the directory digests are equal and the file names are equal; so when
the digest does not collide on `d1` and `d2`, distinct (directory, name) pairs
have distinct keys, and keys of directories with different digests differ
whatever the file names are (a name that begins with bytes of a digest
included). -/
theorem C20_key_injective (d1 d2 n1 n2 : Bytes) :
    (genKey d1 n1 = genKey d2 n2 ↔ hashToBytes d1 = hashToBytes d2 ∧ n1 = n2)
      ∧ ((hashToBytes d1 = hashToBytes d2 → d1 = d2) → (d1, n1) ≠ (d2, n2) →
          genKey d1 n1 ≠ genKey d2 n2)
      ∧ (hashToBytes d1 ≠ hashToBytes d2 → genKey d1 n1 ≠ genKey d2 n2) := by
  have hiff : genKey d1 n1 = genKey d2 n2 ↔ hashToBytes d1 = hashToBytes d2 ∧ n1 = n2 := by
    unfold genKey
    constructor
    · intro h
      exact List.append_inj h (by rw [hashToBytes_length, hashToBytes_length])
    · rintro ⟨h1, h2⟩
      rw [h1, h2]
  refine ⟨hiff, ?_, ?_⟩
  · intro hinj hne hkey
    obtain ⟨hd, hn⟩ := hiff.1 hkey
    exact hne (by rw [hinj hd, hn])
  · intro hne hkey
    exact hne (hiff.1 hkey).1

/-! ### Outcomes of the point operations -/

/-- C11. Outcome classification of `FindEntry` with the engine serving the
read: it returns a nil entry with `filer2.ErrNotFound` exactly when no record
is stored at the key of the path; when a record is stored and decodes, it
returns the decoded entry, whose path is `p`, and a nil error; when a record
is stored and does not decode, it returns a non-nil entry whose path is `p`
together with a non-nil error. -/
theorem C11_find_classification {A C : Type} [Inhabited A] (c : Filer2 A C) (db : DB)
    (p : FullPath) :
    (FindEntry c db none p = .returned (none, some .filerNotFound)
        ↔ lookupKV (genKey (c.DirAndName p).1 (c.DirAndName p).2) db.kvs = none)
      ∧ (∀ data : Bytes,
          lookupKV (genKey (c.DirAndName p).1 (c.DirAndName p).2) db.kvs = some data →
          (c.DecodeAttributesAndChunks (Entry.new p) data).2 = none →
          FindEntry c db none p
              = .returned (some (Entry.decode c (Entry.new p) data).1, none)
            ∧ (Entry.decode c (Entry.new p) data).1.FullPath = p)
      ∧ (∀ (data : Bytes) (err : Error),
          lookupKV (genKey (c.DirAndName p).1 (c.DirAndName p).2) db.kvs = some data →
          (c.DecodeAttributesAndChunks (Entry.new p) data).2 = some err →
          FindEntry c db none p
              = .returned (some (Entry.decode c (Entry.new p) data).1,
                  some (.errorf "decode" p err))
            ∧ (Entry.decode c (Entry.new p) data).1.FullPath = p) := by
  refine ⟨?_, ?_, ?_⟩
  · cases hl : lookupKV (genKey (c.DirAndName p).1 (c.DirAndName p).2) db.kvs with
    | none => simp [FindEntry, DB.Get, hl]
    | some data =>
      cases hd : (c.DecodeAttributesAndChunks (Entry.new p) data).2 with
      | none => simp [FindEntry, DB.Get, hl, Entry.decode, hd]
      | some err => simp [FindEntry, DB.Get, hl, Entry.decode, hd]
  · intro data hl hd
    refine ⟨?_, rfl⟩
    simp [FindEntry, DB.Get, hl, Entry.decode, hd]
  · intro data err hl hd
    refine ⟨?_, rfl⟩
    simp only [FindEntry, DB.Get, hl, Entry.decode, hd]
    rfl

/-- C14. Failure modes of `InsertEntry`: the returned error is nil exactly
when the codec encodes the entry and the engine's `Put` of the payload
succeeds; when encoding fails the error is non-nil and the store is the one
before the call; when encoding succeeds and `Put` fails the error is
non-nil. -/
theorem C14_insert_failure_modes {A C : Type} (c : Filer2 A C) (db : DB)
    (fault : Option String) (e : Entry A C) :
    ((InsertEntry c db fault e).2 = none
        ↔ ∃ value : Bytes, c.EncodeAttributesAndChunks e = .ok value
            ∧ (db.Put fault (genKey (c.DirAndName e.FullPath).1 (c.DirAndName e.FullPath).2)
                value).2 = none)
      ∧ (∀ err : Error, c.EncodeAttributesAndChunks e = .error err →
          (InsertEntry c db fault e).2 = some (.errorf "encoding" e.FullPath err)
            ∧ (InsertEntry c db fault e).1 = db)
      ∧ (∀ value : Bytes, c.EncodeAttributesAndChunks e = .ok value →
          (db.Put fault (genKey (c.DirAndName e.FullPath).1 (c.DirAndName e.FullPath).2)
              value).2 ≠ none →
          (InsertEntry c db fault e).2 ≠ none) := by
  refine ⟨?_, ?_, ?_⟩
  · cases henc : c.EncodeAttributesAndChunks e with
    | error err => simp [InsertEntry, henc]
    | ok value =>
      cases fault with
      | some msg => simp [InsertEntry, henc, DB.Put]
      | none => simp [InsertEntry, henc, DB.Put]
  · intro err henc
    simp [InsertEntry, henc]
  · intro value henc hput
    cases fault with
    | some msg => simp [InsertEntry, henc, DB.Put]
    | none => simp [DB.Put] at hput

/-! ### The frame of a mutation -/

theorem lookupKV_insertKV_of_ne (k k' v : Bytes) (l : List (Bytes × Bytes)) (h : k' ≠ k) :
    lookupKV k' (insertKV k v l) = lookupKV k' l := by
  induction l with
  | nil => simp [insertKV, lookupKV, Ne.symm h]
  | cons hd tl ih =>
    obtain ⟨k2, v2⟩ := hd
    unfold insertKV
    split_ifs with h1 h2
    · simp [lookupKV, Ne.symm h]
    · subst h2
      simp [lookupKV, Ne.symm h]
    · by_cases h3 : k2 = k'
      · simp [lookupKV, h3]
      · simp [lookupKV, h3, ih]

theorem lookupKV_eraseKV_of_ne (k k' : Bytes) (l : List (Bytes × Bytes)) (h : k' ≠ k) :
    lookupKV k' (eraseKV k l) = lookupKV k' l := by
  induction l with
  | nil => simp [eraseKV, lookupKV]
  | cons hd tl ih =>
    obtain ⟨k2, v2⟩ := hd
    unfold eraseKV at ih ⊢
    by_cases h2 : k2 = k
    · subst h2
      rw [List.filter_cons_of_neg (by simp), ih]
      simp [lookupKV, Ne.symm h]
    · rw [List.filter_cons_of_pos (by simpa using h2)]
      by_cases h3 : k2 = k'
      · simp [lookupKV, h3]
      · simp [lookupKV, h3, ih]

theorem mem_insertKV_of_ne (k v : Bytes) (l : List (Bytes × Bytes)) (r : Bytes × Bytes)
    (h : r.1 ≠ k) : r ∈ insertKV k v l ↔ r ∈ l := by
  have hr : r ≠ (k, v) := fun he => h (by rw [he])
  induction l with
  | nil => simp [insertKV, hr]
  | cons hd tl ih =>
    obtain ⟨k2, v2⟩ := hd
    unfold insertKV
    split_ifs with h1 h2
    · simp [hr]
    · subst h2
      have hr2 : r ≠ (k, v2) := fun he => h (by rw [he])
      simp [hr, hr2]
    · simp [ih]

theorem mem_eraseKV_of_ne (k : Bytes) (l : List (Bytes × Bytes)) (r : Bytes × Bytes)
    (h : r.1 ≠ k) : r ∈ eraseKV k l ↔ r ∈ l := by
  simp [eraseKV, List.mem_filter, h]

/-- The result of `FindEntry` depends on the store only through the record at
the key of the path. -/
theorem FindEntry_congr {A C : Type} [Inhabited A] (c : Filer2 A C) (db db' : DB)
    (fault : Option String) (q : FullPath)
    (h : lookupKV (genKey (c.DirAndName q).1 (c.DirAndName q).2) db'.kvs
      = lookupKV (genKey (c.DirAndName q).1 (c.DirAndName q).2) db.kvs) :
    FindEntry c db' fault q = FindEntry c db fault q := by
  simp only [FindEntry, DB.Get, h]

/-- The store after `InsertEntry` is the store before it or that store with
the payload put at the entry's key. -/
theorem InsertEntry_store {A C : Type} (c : Filer2 A C) (db : DB) (fault : Option String)
    (e : Entry A C) :
    (InsertEntry c db fault e).1 = db
      ∨ ∃ value : Bytes, (InsertEntry c db fault e).1
          = ⟨insertKV (genKey (c.DirAndName e.FullPath).1 (c.DirAndName e.FullPath).2) value
              db.kvs⟩ := by
  cases henc : c.EncodeAttributesAndChunks e with
  | error err => left; simp [InsertEntry, henc]
  | ok value =>
    cases fault with
    | some msg => left; simp [InsertEntry, henc, DB.Put]
    | none => right; exact ⟨value, by simp [InsertEntry, henc, DB.Put]⟩

/-- The store after `DeleteEntry` is the store before it or that store with
the records at the path's key removed. -/
theorem DeleteEntry_store {A C : Type} (c : Filer2 A C) (db : DB) (fault : Option String)
    (p : FullPath) :
    (DeleteEntry c db fault p).1 = db
      ∨ (DeleteEntry c db fault p).1
          = ⟨eraseKV (genKey (c.DirAndName p).1 (c.DirAndName p).2) db.kvs⟩ := by
  cases fault with
  | some msg => left; simp [DeleteEntry, DB.Delete]
  | none => right; simp [DeleteEntry, DB.Delete]

/-- C18. Mutations touch one key only: when the storage key of the path `q`
differs from the storage key of the entry `e`, `FindEntry q` returns the same
result before and after `InsertEntry e`, `UpdateEntry e` and
`DeleteEntry e.FullPath`, whatever the engine does on these calls; and a
record whose key is not the operated key is in the store after each of these
mutations exactly when it was in the store before. -/
theorem C18_mutation_frame {A C : Type} [Inhabited A] (c : Filer2 A C) (db : DB)
    (fault getFault : Option String) (e : Entry A C) (q : FullPath)
    (hne : genKey (c.DirAndName q).1 (c.DirAndName q).2
      ≠ genKey (c.DirAndName e.FullPath).1 (c.DirAndName e.FullPath).2) :
    FindEntry c (InsertEntry c db fault e).1 getFault q = FindEntry c db getFault q
      ∧ FindEntry c (UpdateEntry c db fault e).1 getFault q = FindEntry c db getFault q
      ∧ FindEntry c (DeleteEntry c db fault e.FullPath).1 getFault q
          = FindEntry c db getFault q
      ∧ (∀ r : Bytes × Bytes,
          r.1 ≠ genKey (c.DirAndName e.FullPath).1 (c.DirAndName e.FullPath).2 →
          (r ∈ (InsertEntry c db fault e).1.kvs ↔ r ∈ db.kvs)
            ∧ (r ∈ (UpdateEntry c db fault e).1.kvs ↔ r ∈ db.kvs)
            ∧ (r ∈ (DeleteEntry c db fault e.FullPath).1.kvs ↔ r ∈ db.kvs)) := by
  have hins : FindEntry c (InsertEntry c db fault e).1 getFault q
      = FindEntry c db getFault q := by
    apply FindEntry_congr
    rcases InsertEntry_store c db fault e with h | ⟨value, h⟩
    · rw [h]
    · rw [h]
      exact lookupKV_insertKV_of_ne _ _ value db.kvs hne
  have hdel : FindEntry c (DeleteEntry c db fault e.FullPath).1 getFault q
      = FindEntry c db getFault q := by
    apply FindEntry_congr
    rcases DeleteEntry_store c db fault e.FullPath with h | h
    · rw [h]
    · rw [h]
      exact lookupKV_eraseKV_of_ne _ _ db.kvs hne
  refine ⟨hins, hins, hdel, ?_⟩
  intro r hr
  have hmi : r ∈ (InsertEntry c db fault e).1.kvs ↔ r ∈ db.kvs := by
    rcases InsertEntry_store c db fault e with h | ⟨value, h⟩
    · rw [h]
    · rw [h]
      exact mem_insertKV_of_ne _ value db.kvs r hr
  have hmd : r ∈ (DeleteEntry c db fault e.FullPath).1.kvs ↔ r ∈ db.kvs := by
    rcases DeleteEntry_store c db fault e.FullPath with h | h
    · rw [h]
    · rw [h]
      exact mem_eraseKV_of_ne _ db.kvs r hr
  exact ⟨hmi, hmi, hmd⟩

/-! ### Safety of the loop and the scan cursor -/

/-- A key that starts with a directory's 16-byte key prefix has at least 16
bytes, so the slice `key[8:]` is in range. -/
theorem getNameFromKey_of_isPrefix (fullpath : FullPath) (key : Bytes)
    (h : genDirectoryKeyPrefix fullpath [] <+: key) :
    16 ≤ key.length ∧ getNameFromKey key = some (key.drop 8) := by
  have hlen : 16 ≤ key.length := by
    have := h.length_le
    rw [genDirectoryKeyPrefix_eq, List.append_nil, hashToBytes_length] at this
    exact this
  refine ⟨hlen, ?_⟩
  unfold getNameFromKey
  rw [if_pos (by omega)]

/-- The loop returns on every iterator content and every value of `limit`:
no iteration panics. -/
theorem listLoop_returns {A C : Type} [Inhabited A] (c : Filer2 A C) (fullpath : FullPath)
    (startFileName : Bytes) (inclusive : Bool) (dp : Bytes) (hdp : 8 ≤ dp.length) :
    ∀ (items : List (Bytes × Bytes)) (limit : Int) (entries : List (Entry A C)),
      ∃ r, listLoop c fullpath startFileName inclusive dp items limit entries
        = .returned r := by
  intro items
  induction items with
  | nil =>
    intro limit entries
    exact ⟨(entries, none), by simp [listLoop]⟩
  | cons hd tl ih =>
    intro limit entries
    obtain ⟨key, value⟩ := hd
    unfold listLoop
    by_cases hp : dp <+: key
    · have hlen : 8 ≤ key.length := le_trans hdp hp.length_le
      have hname : getNameFromKey key = some (key.drop 8) := by
        simp [getNameFromKey, hlen]
      rw [if_neg (not_not.2 hp)]
      simp only [hname]
      by_cases he : key.drop 8 = []
      · rw [if_pos he]
        exact ih limit entries
      · rw [if_neg he]
        by_cases hs : key.drop 8 = startFileName ∧ inclusive = false
        · rw [if_pos hs]
          exact ih limit entries
        · rw [if_neg hs]
          by_cases hl : wrapInt (limit - 1) < 0
          · exact ⟨(entries, none), by simp [hl]⟩
          · simp only [if_neg hl]
            cases hd : Entry.decode c (Entry.new (c.NewFullPath fullpath (key.drop 8))) value with
            | mk e err =>
              cases err with
              | some err => exact ⟨(entries, some err), rfl⟩
              | none => exact ih (wrapInt (limit - 1)) (entries ++ [e])
    · rw [if_pos hp]
      exact ⟨(entries, none), rfl⟩

/-- The listing returns on every store content and every value of `limit`. -/
theorem ListDirectoryEntries_returns {A C : Type} [Inhabited A] (c : Filer2 A C) (db : DB)
    (fullpath : FullPath) (startFileName : Bytes) (inclusive : Bool) (limit : Int) :
    ∃ r, ListDirectoryEntries c db fullpath startFileName inclusive limit = .returned r := by
  have hdp : 8 ≤ (genDirectoryKeyPrefix fullpath []).length := by
    simp [genDirectoryKeyPrefix, hashToBytes_length]
  exact listLoop_returns c fullpath startFileName inclusive _ hdp _ limit []

/-- C17. The scan cursor is always released: for every store content,
directory, start file name, flag and limit, the call returns (whether the
iterator is exhausted, a key leaves the directory prefix, the limit is
reached or a payload does not decode), and the cursor it opened, not released
at the start, has been released exactly once at the end; the result is that
of `ListDirectoryEntries`. -/
theorem C17_cursor_released {A C : Type} [Inhabited A] (c : Filer2 A C) (db : DB)
    (fullpath : FullPath) (startFileName : Bytes) (inclusive : Bool) (limit : Int) :
    (db.NewCursor (genDirectoryKeyPrefix fullpath startFileName)).released = 0
      ∧ (ListDirectoryEntriesCursor c db fullpath startFileName inclusive limit).2.released = 1
      ∧ (ListDirectoryEntriesCursor c db fullpath startFileName inclusive limit).1
          = ListDirectoryEntries c db fullpath startFileName inclusive limit
      ∧ ∃ r, (ListDirectoryEntriesCursor c db fullpath startFileName inclusive limit).1
          = .returned r := by
  obtain ⟨r, hr⟩ := ListDirectoryEntries_returns c db fullpath startFileName inclusive limit
  have hr2 : listLoop c fullpath startFileName inclusive (genDirectoryKeyPrefix fullpath [])
      (db.NewIterator (genDirectoryKeyPrefix fullpath startFileName)) limit []
      = .returned r := hr
  refine ⟨rfl, ?_, ?_, r, ?_⟩
  · simp [ListDirectoryEntriesCursor, DB.NewCursor, hr2, Iterator.Release]
  · rw [hr]
    simp [ListDirectoryEntriesCursor, DB.NewCursor, hr2]
  · simp [ListDirectoryEntriesCursor, DB.NewCursor, hr2]

/-- C19. Slicing in the listing loop is safe: a key that passes the
`bytes.HasPrefix` test against the directory's key prefix has at least 16
bytes, so `getNameFromKey` returns on it; this holds for every record of the
scan range, the only records the loop decodes a name from; and for every store
content, keys not produced by the encoder included, the listing returns and
does not panic with a slice out of range. -/
theorem C19_slicing_safe {A C : Type} [Inhabited A] (c : Filer2 A C) (db : DB)
    (fullpath : FullPath) (startFileName : Bytes) (inclusive : Bool) (limit : Int) :
    (∀ key : Bytes, genDirectoryKeyPrefix fullpath [] <+: key →
        16 ≤ key.length ∧ getNameFromKey key = some (key.drop 8))
      ∧ (∀ r ∈ scanRange db fullpath startFileName,
          16 ≤ r.1.length ∧ getNameFromKey r.1 = some (r.1.drop 8))
      ∧ (∃ r, ListDirectoryEntries c db fullpath startFileName inclusive limit = .returned r)
      ∧ ListDirectoryEntries c db fullpath startFileName inclusive limit
          ≠ .panicked .sliceOutOfRange := by
  refine ⟨fun key h => getNameFromKey_of_isPrefix fullpath key h, ?_, ?_, ?_⟩
  · intro r hr
    unfold scanRange at hr
    have hp := List.mem_takeWhile_imp hr
    exact getNameFromKey_of_isPrefix fullpath r.1 (by simpa using hp)
  · exact ListDirectoryEntries_returns c db fullpath startFileName inclusive limit
  · obtain ⟨r, hr⟩ := ListDirectoryEntries_returns c db fullpath startFileName inclusive limit
    rw [hr]
    intro h
    cases h

/-! ### The scan range on an ordered store -/

/-- On an ascending list of records, all at or above a bound that starts with
`p`, the leading run of keys starting with `p` holds every key starting with
`p`. -/
theorem takeWhile_eq_filter_of_sorted (p lb : Bytes) (hlb : p <+: lb) :
    ∀ m : List (Bytes × Bytes), m.Pairwise (fun a b => a.1 < b.1) → (∀ r ∈ m, lb ≤ r.1) →
      m.takeWhile (fun r => decide (p <+: r.1)) = m.filter (fun r => decide (p <+: r.1)) := by
  intro m
  induction m with
  | nil => intro _ _; rfl
  | cons x m ih =>
    intro hs hge
    rw [List.pairwise_cons] at hs
    by_cases hp : p <+: x.1
    · rw [List.takeWhile_cons_of_pos (by simpa using hp),
        List.filter_cons_of_pos (by simpa using hp),
        ih hs.2 (fun r hr => hge r (List.mem_cons_of_mem _ hr))]
    · rw [List.takeWhile_cons_of_neg (by simpa using hp),
        List.filter_cons_of_neg (by simpa using hp)]
      symm
      rw [List.filter_eq_nil_iff]
      intro y hy hpy
      have hxy : x.1 ≤ y.1 := le_of_lt (hs.1 y hy)
      exact hp (isPrefix_of_le_of_le p lb x.1 y.1 (hge x (List.mem_cons_self _ _)) hxy hlb
        (by simpa using hpy))

/-- The scan range of an ordered store: the stored records at or above the
lower bound whose key starts with the directory digest. -/
theorem scanRange_eq_filter (db : DB) (fullpath : FullPath) (startFileName : Bytes)
    (hs : db.Sorted) :
    scanRange db fullpath startFileName
      = (db.kvs.filter (fun r => decide (hashToBytes fullpath ++ startFileName ≤ r.1))).filter
          (fun r => decide (hashToBytes fullpath <+: r.1)) := by
  unfold scanRange DB.NewIterator
  rw [genDirectoryKeyPrefix_eq, genDirectoryKeyPrefix_eq, List.append_nil]
  apply takeWhile_eq_filter_of_sorted (hashToBytes fullpath)
    (hashToBytes fullpath ++ startFileName) (List.prefix_append _ _)
  · exact List.Pairwise.filter _ hs
  · intro r hr
    simpa using (List.mem_filter.1 hr).2

/-- C15. Prefix termination is exact. In the byte order the keys starting
with `p` form a contiguous run: between two keys that start with `p` every
key starts with `p`. So on an ordered store, once the iterator opened at the
lower bound yields a key without the directory digest, no later key has it;
the scan range is exactly the set of stored records at or above the lower
bound whose key starts with the digest; and when the limit is not reached and
every eligible payload decodes, the listing returns the entry of each
accepted record among them, in order. -/
theorem C15_prefix_termination {A C : Type} [Inhabited A] (c : Filer2 A C) (db : DB)
    (fullpath : FullPath) (startFileName : Bytes) (hs : db.Sorted) :
    (∀ p k1 k2 k3 : Bytes, k1 ≤ k2 → k2 ≤ k3 → p <+: k1 → p <+: k3 → p <+: k2)
      ∧ (∀ (pre post : List (Bytes × Bytes)) (x : Bytes × Bytes),
          db.NewIterator (genDirectoryKeyPrefix fullpath startFileName) = pre ++ x :: post →
          ¬ hashToBytes fullpath <+: x.1 → ∀ y ∈ post, ¬ hashToBytes fullpath <+: y.1)
      ∧ (∀ r : Bytes × Bytes, r ∈ scanRange db fullpath startFileName
          ↔ r ∈ db.kvs ∧ genDirectoryKeyPrefix fullpath startFileName ≤ r.1
              ∧ hashToBytes fullpath <+: r.1)
      ∧ (∀ (inclusive : Bool) (limit : Int), limit ≤ maxInt →
          ((eligibleRecords db fullpath startFileName inclusive).length : Int) ≤ limit →
          (∀ r ∈ eligibleRecords db fullpath startFileName inclusive,
            (decodeRecord c fullpath r).2 = none) →
          ListDirectoryEntries c db fullpath startFileName inclusive limit
            = .returned
                ((((db.kvs.filter
                      (fun r => decide (hashToBytes fullpath ++ startFileName ≤ r.1))).filter
                    (fun r => decide (hashToBytes fullpath <+: r.1))).filter
                  (accepts startFileName inclusive)).map
                  (fun r => (decodeRecord c fullpath r).1), none)) := by
  refine ⟨isPrefix_of_le_of_le, ?_, ?_, ?_⟩
  · intro pre post x hit hx y hy hpy
    have hsorted := NewIterator_sorted db (genDirectoryKeyPrefix fullpath startFileName) hs
    rw [hit] at hsorted
    have hxy : x.1 < y.1 :=
      (List.pairwise_cons.1 (List.pairwise_append.1 hsorted).2.1).1 y hy
    have hx_mem : x ∈ db.NewIterator (genDirectoryKeyPrefix fullpath startFileName) := by
      rw [hit]; simp
    have hlb : genDirectoryKeyPrefix fullpath startFileName ≤ x.1 := by
      simpa using (List.mem_filter.1 hx_mem).2
    rw [genDirectoryKeyPrefix_eq] at hlb
    exact hx (isPrefix_of_le_of_le (hashToBytes fullpath) _ x.1 y.1 hlb (le_of_lt hxy)
      (List.prefix_append _ _) hpy)
  · intro r
    rw [scanRange_eq_filter db fullpath startFileName hs, genDirectoryKeyPrefix_eq]
    simp only [List.mem_filter, decide_eq_true_eq]
    tauto
  · intro inclusive limit h2 hlen hdec
    have h1 : minInt < limit := by
      have : (0 : Int) ≤ ((eligibleRecords db fullpath startFileName inclusive).length : Int) :=
        Int.natCast_nonneg _
      unfold minInt
      omega
    have htake : (eligibleRecords db fullpath startFileName inclusive).take limit.toNat
        = eligibleRecords db fullpath startFileName inclusive := by
      apply List.take_of_length_le
      omega
    rw [ListDirectoryEntries_of_decodable c db fullpath startFileName inclusive limit h1 h2
      (by rw [htake]; exact hdec), htake]
    unfold eligibleRecords
    rw [scanRange_eq_filter db fullpath startFileName hs]

/-! ### The claims at concrete inputs, continued -/

/-- The key written for the root path `/` is the bare digest of `/`: its
file-name part is empty. -/
theorem rootStore_root_key :
    genKey (sampleFiler2.DirAndName (str "/")).1 (sampleFiler2.DirAndName (str "/")).2
        = hashToBytes (str "/")
      ∧ lookupKV (hashToBytes (str "/")) rootStore.kvs = some [9] := by
  decide

/-- C16, evaluated on the store holding the root entry `/` (key = the bare
digest of `/`, empty file name) and the file `/a`: listing `/` with limit 1
returns one entry, built from the root record (attribute 9) under the name
made of the last 8 digest bytes, and not the entry of `/a`; so the record
with the empty name yields an entry and uses up the limit. The name decoded
by `key[8:]` is never empty on a key with the 16-byte prefix. -/
theorem C16_empty_name_at_root :
    ListDirectoryEntries sampleFiler2 rootStore (str "/") [] true 1
        = .returned
          ([⟨str "/" ++ [158, 123, 227, 157, 117, 12, 199, 217], 9, []⟩], none)
      ∧ (resultPaths (ListDirectoryEntries sampleFiler2 rootStore (str "/") [] true
          10)).map List.length = some 2 := by
  decide

/-! ### Witnesses, continued -/

theorem exampleStore_sorted : exampleStore.Sorted := by
  unfold DB.Sorted
  decide

theorem C11_find_classification_witness :
    lookupKV (genKey (sampleFiler2.DirAndName (str "/d/a.txt")).1
        (sampleFiler2.DirAndName (str "/d/a.txt")).2) brokenStore.kvs = some []
      ∧ FindEntry sampleFiler2 brokenStore none (str "/d/a.txt")
        = .returned (some (Entry.decode sampleFiler2 (Entry.new (str "/d/a.txt")) []).1,
            some (.errorf "decode" (str "/d/a.txt") (.codec "decode"))) :=
  ⟨by decide,
    ((C11_find_classification sampleFiler2 brokenStore (str "/d/a.txt")).2.2 []
      (.codec "decode") (by decide) (by decide)).1⟩

theorem C14_insert_failure_modes_witness :
    sampleFiler2.EncodeAttributesAndChunks (mkEntry "/d/n.txt" 300 []) = .error (.codec "encode")
      ∧ (InsertEntry sampleFiler2 exampleStore none (mkEntry "/d/n.txt" 300 [])).1
        = exampleStore :=
  ⟨rfl,
    ((C14_insert_failure_modes sampleFiler2 exampleStore none (mkEntry "/d/n.txt" 300 [])).2.1
      (.codec "encode") rfl).2⟩

theorem C15_prefix_termination_witness :
    exampleStore.Sorted
      ∧ ∀ r : Bytes × Bytes, r ∈ scanRange exampleStore (str "/d") (str "b.txt")
          ↔ r ∈ exampleStore.kvs ∧ genDirectoryKeyPrefix (str "/d") (str "b.txt") ≤ r.1
              ∧ hashToBytes (str "/d") <+: r.1 :=
  ⟨exampleStore_sorted,
    (C15_prefix_termination sampleFiler2 exampleStore (str "/d") (str "b.txt")
      exampleStore_sorted).2.2.1⟩

theorem C18_mutation_frame_witness :
    genKey (sampleFiler2.DirAndName (str "/d/a.txt")).1
        (sampleFiler2.DirAndName (str "/d/a.txt")).2
      ≠ genKey (sampleFiler2.DirAndName (mkEntry "/d/b.txt" 8 [1]).FullPath).1
        (sampleFiler2.DirAndName (mkEntry "/d/b.txt" 8 [1]).FullPath).2
      ∧ FindEntry sampleFiler2
          (InsertEntry sampleFiler2 exampleStore none (mkEntry "/d/b.txt" 8 [1])).1 none
          (str "/d/a.txt")
        = FindEntry sampleFiler2 exampleStore none (str "/d/a.txt") :=
  ⟨by decide,
    (C18_mutation_frame sampleFiler2 exampleStore none none (mkEntry "/d/b.txt" 8 [1])
      (str "/d/a.txt") (by decide)).1⟩

theorem C20_key_injective_witness :
    (hashToBytes (str "/d") = hashToBytes (str "/e") → str "/d" = str "/e")
      ∧ (str "/d", str "a.txt") ≠ (str "/e", str "a.txt")
      ∧ genKey (str "/d") (str "a.txt") ≠ genKey (str "/e") (str "a.txt") :=
  ⟨by decide, by decide,
    (C20_key_injective (str "/d") (str "/e") (str "a.txt") (str "a.txt")).2.1
      (by decide) (by decide)⟩

end Leveldb2
